import Mathlib

/-!
Shallow embedding of the Axe-Webhooks repository
(`src/axe-webhooks/watcher/watcher.py` and `src/axe-webhooks/web/app.py`).

JSON values and Python dynamic values are modelled by the inductive `Val`;
Python floats are modelled by exact rationals (`ℚ`), with `int(...)`
truncation toward zero made explicit (`pyTrunc`).  Dictionaries are
association lists.  Each embedded definition carries the name of the Python
function it translates.
-/

namespace AxeWebhooks

/-- A Python/JSON dynamic value.  `vnull` is Python `None` (and JSON null);
`vnum` models a JSON/Python float by an exact rational. -/
inductive Val where
  | vnull
  | vbool (b : Bool)
  | vint (n : Int)
  | vnum (q : ℚ)
  | vstr (s : String)
  | vlist (xs : List Val)
  | vdict (kvs : List (String × Val))

/-- Python truthiness (`bool(v)`): `None`, `False`, `0`, `0.0`, `""`, `[]`,
`{}` are falsy, everything else truthy. -/
def Val.truthy : Val → Bool
  | .vnull => false
  | .vbool b => b
  | .vint n => n != 0
  | .vnum q => q != 0
  | .vstr s => !s.isEmpty
  | .vlist xs => !xs.isEmpty
  | .vdict kvs => !kvs.isEmpty

/-- `v is None` in Python. -/
def Val.isNull : Val → Bool
  | .vnull => true
  | _ => false

/-- Lookup in a dictionary modelled as an association list (first binding
wins, as Python dicts hold each key once). -/
def dictGet (d : List (String × Val)) (k : String) : Option Val :=
  (d.find? (fun kv => kv.1 == k)).map (·.2)

/-- Python `d.get(k)`: a missing key yields Python `None` (`vnull`). -/
def pyGet (d : List (String × Val)) (k : String) : Val :=
  (dictGet d k).getD .vnull

/-- Python `d.get(k, dflt)`: the default applies only when the key is
missing; a stored `None` is returned as-is. -/
def pyGetD (d : List (String × Val)) (k : String) (dflt : Val) : Val :=
  (dictGet d k).getD dflt

/-- Python `a or b`: returns `a` when `a` is truthy, else `b`. -/
def pyOr (a b : Val) : Val :=
  if a.truthy then a else b

/-- Python `int(...)` applied to a float: truncation toward zero. -/
def pyTrunc (q : ℚ) : Int :=
  if 0 ≤ q then ⌊q⌋ else ⌈q⌉

/-- Python `s.strip()`: drop leading and trailing whitespace. -/
def pyStrip (s : String) : String :=
  String.mk (((s.data.dropWhile Char.isWhitespace).reverse.dropWhile
    Char.isWhitespace).reverse)

/-- The digits of a decimal literal, most significant first; `none` when
empty or containing a non-digit. -/
def digitsOf (l : List Char) : Option Nat :=
  if l.isEmpty then none
  else
    l.foldl
      (fun acc c =>
        match acc with
        | none => none
        | some n => if c.isDigit then some (n * 10 + (c.toNat - 48)) else none)
      (some 0)

/-- Python `int(s)` on a string: optional sign and decimal digits after
whitespace stripping; anything else raises `ValueError` (`none`). -/
def pyParseInt (s : String) : Option Int :=
  match (pyStrip s).data with
  | [] => none
  | '-' :: rest => (digitsOf rest).map (fun n => -(n : Int))
  | '+' :: rest => (digitsOf rest).map (fun n => (n : Int))
  | l => (digitsOf l).map (fun n => (n : Int))

/-- Python `int(v)`: identity on ints, 0/1 on bools, truncation on floats,
parse on (integer) strings; failure (`ValueError`/`TypeError`) is `none`. -/
def pyToInt : Val → Option Int
  | .vint n => some n
  | .vbool b => some (if b then 1 else 0)
  | .vnum q => some (pyTrunc q)
  | .vstr s => pyParseInt s
  | _ => none

/-- Python `float(v)`: numbers convert, bools give 0/1, numeric strings
parse (only integer-valued strings are modelled; no claim exercises
fractional numeric strings), everything else raises (`none`). -/
def pyToFloat : Val → Option ℚ
  | .vint n => some (n : ℚ)
  | .vnum q => some q
  | .vbool b => some (if b then 1 else 0)
  | .vstr s => (pyParseInt s).map (fun n => (n : ℚ))
  | _ => none

/-- Python `str(v)`.  The textual rendering of floats and containers is
Python repr, which no claim depends on; those branches are abbreviated. -/
def pyStr : Val → String
  | .vnull => "None"
  | .vbool b => if b then "True" else "False"
  | .vint n => toString n
  | .vnum q => toString q
  | .vstr s => s
  | .vlist _ => "[...]"
  | .vdict _ => "\x7b...\x7d"

/-- Python `s.rstrip("/")`: drop every trailing `/`. -/
def rstripSlash (s : String) : String :=
  String.mk ((s.data.reverse.dropWhile (fun c => c = '/')).reverse)

/-- Whether a string ends with the character `/`. -/
def endsSlash (s : String) : Bool :=
  s.data.getLast? == some '/'

/-- The configuration structure returned by `watcher.py`'s `load_config`
(all six fields are strings there). -/
structure Config where
  bch_base : String
  xec_base : String
  btc_base : String
  dbg_base : String
  proxy_token : String
  discord_webhook : String
deriving DecidableEq

/-- Embeds `load_config` of `watcher/watcher.py`.  `doc = none` models a
read or JSON-parse failure of `/data/config.json`; `some v` a parsed
document (the code keeps the defaults unless the document is a dict).
For a key present with a non-`None` value the code stores
`str(data[k]).strip()`; otherwise the default `""` is kept.  The four base
URLs are then right-stripped of `/`. -/
def load_config (doc : Option Val) : Config :=
  let getd : String → String := fun k =>
    match doc with
    | some (.vdict d) =>
        match dictGet d k with
        | some v => if v.isNull then "" else pyStrip (pyStr v)
        | none => ""
    | _ => ""
  { bch_base := rstripSlash (getd "bch_base")
    xec_base := rstripSlash (getd "xec_base")
    btc_base := rstripSlash (getd "btc_base")
    dbg_base := rstripSlash (getd "dbg_base")
    proxy_token := getd "proxy_token"
    discord_webhook := getd "discord_webhook" }

/-- The configuration returned by `web/app.py`'s `load_config`: values are
stored verbatim (as dynamic values), so the fields stay `Val`. -/
structure WebConfig where
  bch_base : Val
  xec_base : Val
  btc_base : Val
  dbg_base : Val
  proxy_token : Val
  discord_webhook : Val

/-- Embeds `load_config` of `web/app.py`.  Defaults for the base URLs are
built from the detected host gateway IP; a key overrides its default only
when present *and truthy* (`if key in data and data[key]`), and the stored
value is taken verbatim — no `str`, no `strip`, no slash removal. -/
def webLoadConfig (host_ip : String) (doc : Option Val) : WebConfig :=
  let getd : String → Val → Val := fun k dflt =>
    match doc with
    | some (.vdict d) =>
        match dictGet d k with
        | some v => if v.truthy then v else dflt
        | none => dflt
    | _ => dflt
  { bch_base := getd "bch_base" (.vstr ("http://" ++ host_ip ++ ":21212"))
    xec_base := getd "xec_base" (.vstr ("http://" ++ host_ip ++ ":21218"))
    btc_base := getd "btc_base" (.vstr ("http://" ++ host_ip ++ ":21215"))
    dbg_base := getd "dbg_base" (.vstr ("http://" ++ host_ip ++ ":21213"))
    proxy_token := getd "proxy_token" (.vstr "")
    discord_webhook := getd "discord_webhook" (.vstr "") }

/-- Two-decimal fixed rendering, Python's `f"\x7bx:.2f\x7d"` on the exact
rational modelling the float (round half to even, as IEEE formatting does
on exactly representable midpoints). -/
def round2 (q : ℚ) : Int :=
  let x := q * 100
  let fl := ⌊x⌋
  let fr := x - (fl : ℚ)
  if fr > 1 / 2 then fl + 1
  else if fr < 1 / 2 then fl
  else if fl % 2 = 0 then fl else fl + 1

/-- Left-pad a two-digit fractional part. -/
def pad2 (n : Nat) : String :=
  if n < 10 then "0" ++ toString n else toString n

/-- Render `q` with exactly two decimals. -/
def fmt2 (q : ℚ) : String :=
  let n := round2 q
  let sign := if n < 0 then "-" else ""
  let m := n.natAbs
  sign ++ toString (m / 100) ++ "." ++ pad2 (m % 100)

/-- The unit suffixes of `format_mining_number`. -/
def miningUnits : List String := ["", "K", "M", "G", "T", "P", "E"]

/-- The `while num >= 1000 and index < len(units) - 1` loop of
`format_mining_number`. -/
def fmnLoop (num : ℚ) (idx : Nat) : ℚ × Nat :=
  if h : 1000 ≤ num ∧ idx < 6 then fmnLoop (num / 1000) (idx + 1)
  else (num, idx)
termination_by 6 - idx
decreasing_by omega

/-- Embeds `format_mining_number` of `watcher/watcher.py` (its argument is
always an `int` at every call site, so `float(value)` never fails). -/
def format_mining_number (value : Int) : String :=
  let p := fmnLoop (value : ℚ) 0
  if p.2 = 0 then toString (pyTrunc p.1)
  else fmt2 p.1 ++ miningUnits.getD p.2 ""

/-- The number of filled glyphs in `progress_bar`:
`int(min(ratio, 1.0) * width)` after `ratio = max(0.0, ratio)`. -/
def filledCount (ratio : ℚ) (width : Nat) : Nat :=
  (pyTrunc (min (max 0 ratio) 1 * width)).toNat

/-- The glyph run of `progress_bar`: `"█" * filled + "░" * empty`. -/
def barGlyphs (ratio : ℚ) (width : Nat) : List Char :=
  List.replicate (filledCount ratio width) '█'
    ++ List.replicate (width - filledCount ratio width) '░'

/-- Embeds `progress_bar` of `watcher/watcher.py`: the f-string
`` `{bar}` **{pct:.2f}%** `` assembled at character level. -/
def progress_bar (ratio : ℚ) (width : Nat) : String :=
  String.mk (['`'] ++ barGlyphs ratio width ++ ['`', ' ', '*', '*']
    ++ (fmt2 (min (max 0 ratio) 1 * 100)).data ++ ['%', '*', '*'])

/-- Embeds `pretty_worker_name`'s use of Python `str.title()`: an
alphabetic character is upper-cased when the previous character was not
alphabetic, lower-cased otherwise. -/
def titleCase (s : String) : String :=
  String.mk ((s.data.foldl
    (fun (acc : List Char × Bool) c =>
      if c.isAlpha then ((if acc.2 then c.toLower else c.toUpper) :: acc.1, true)
      else (c :: acc.1, false))
    ([], false)).1.reverse)

/-- `workername.split(".", 1)[1]`: everything after the first dot. -/
def afterFirstDot (l : List Char) : List Char :=
  (l.dropWhile (fun c => !(c == '.'))).tail

/-- Python `s.split()`: split on whitespace runs, dropping empties
(accumulator carries the current word reversed). -/
def wordsAux : List Char → List Char → List String
  | [], cur => if cur.isEmpty then [] else [String.mk cur.reverse]
  | c :: rest, cur =>
      if c.isWhitespace then
        if cur.isEmpty then wordsAux rest []
        else String.mk cur.reverse :: wordsAux rest []
      else wordsAux rest (c :: cur)

/-- Python `s.split()` on a string. -/
def pyWords (s : String) : List String :=
  wordsAux s.data []

/-- Embeds `pretty_worker_name` of `watcher/watcher.py`. -/
def pretty_worker_name (workername : String) : String :=
  if workername = "" then "Unknown"
  else
    let suffix :=
      if workername.data.contains '.' then
        String.mk (afterFirstDot workername.data)
      else workername
    let squeezed := String.intercalate " " (pyWords (pyStrip suffix))
    if squeezed = "" then "Unknown" else titleCase squeezed

/-- The `diff_int` computation of `discord_post_ath`: `None` unless the raw
`network_difficulty` is truthy and `int(float(diff))` succeeds. -/
def diffIntOf (pool_data : List (String × Val)) : Option Int :=
  let diff := pyGet pool_data "network_difficulty"
  if diff.truthy then (pyToFloat diff).map pyTrunc else none

/-- The `diff_formatted` string of `discord_post_ath`. -/
def diffFormatted (pool_data : List (String × Val)) : String :=
  match diffIntOf pool_data with
  | some d => format_mining_number d
  | none => "—"

/-- The `ratio` computation of `discord_post_ath`:
`float(bestever) / float(diff_int) if diff_int else 0.0`. -/
def ratioOf (bestever : Int) (pool_data : List (String × Val)) : ℚ :=
  match diffIntOf pool_data with
  | some d => if d = 0 then 0 else (bestever : ℚ) / (d : ℚ)
  | none => 0

/-- The embed `fields` list built by `discord_post_ath` (name/value pairs;
the `inline` flags carry no information relevant to any claim). -/
def athFields (display : String) (bestever : Int)
    (pool_data : List (String × Val)) : List (String × String) :=
  [("🏷 Worker", "**" ++ display ++ "**"),
   ("🎯 Best Share", "`" ++ format_mining_number bestever ++ "`"),
   ("⛏ Block Diff", "`" ++ diffFormatted pool_data ++ "`"),
   ("📈 Progress to Block", progress_bar (ratioOf bestever pool_data) 18)]

/-- The per-chain `last_bestever` mapping (worker identifier to last known
best share), modelled as an association list with unique keys by
construction. -/
abbrev Hist := List (String × Int)

/-- `last_bestever.get(name)`. -/
def histGet (h : Hist) (k : String) : Option Int :=
  (h.find? (fun kv => kv.1 == k)).map (·.2)

/-- `last_bestever[name] = v`: replace the first binding of `k`, or append
a new one. -/
def histSet (h : Hist) (k : String) (v : Int) : Hist :=
  match h with
  | [] => [(k, v)]
  | (k', v') :: t => if k' == k then (k, v) :: t else (k', v') :: histSet t k v

/-- The candidate field names tried by `monitor_chain` for the best-share
value, in source order. -/
def bestKeys : List String :=
  ["best_share_since_block", "bestshare_since_block",
   "bestever_since_block", "bestever"]

/-- A worker record: one element of `workers_details`, a string-keyed
map. -/
abbrev Record := List (String × Val)

/-- The `raw_name` computation of `monitor_chain`:
`str(w.get("workername", "")).strip()`. -/
def workerName (w : Record) : String :=
  pyStrip (pyStr (pyGetD w "workername" (.vstr "")))

/-- The best-share resolution of `monitor_chain`: the Python `or`-chain
over the four candidate fields, then `continue` when the result is `None`,
then `int(...)` with `continue` on coercion failure.  `none` is "record
skipped for this cycle". -/
def resolveBest (w : Record) : Option Int :=
  let bestever :=
    pyOr (pyGet w "best_share_since_block")
      (pyOr (pyGet w "bestshare_since_block")
        (pyOr (pyGet w "bestever_since_block") (pyGet w "bestever")))
  if bestever.isNull then none else pyToInt bestever

/-- Modelled from the spec (for comparison with `resolveBest`): "the
best-share integer is resolved by trying the fixed candidate field names
... in that order and taking the first one that is present with a non-null
value, coerced to integer". -/
def specResolveBest (w : Record) : Option Int :=
  match (bestKeys.filterMap
      (fun k => match dictGet w k with
        | some v => if v.isNull then none else some v
        | none => none)).head? with
  | some v => pyToInt v
  | none => none

/-- One attempted new-record notification: the call
`discord_post_ath(display, bestever_int, w, pool_data, chain, webhook)`
made for a detected increase.  `sent` records whether the attempt
succeeded (the HTTP outcome is external, supplied by an oracle). -/
structure Notif where
  worker : String
  display : String
  prev : Int
  newVal : Int
  sent : Bool
deriving DecidableEq

/-- The mutable state of one pass over `workers_details` in
`monitor_chain`: the in-memory `last_bestever`, the `changed` flag, and
the notification attempts made so far (in discovery order). -/
structure StepState where
  hist : Hist
  changed : Bool
  notifs : List Notif
deriving DecidableEq

/-- The body of the `for w in details` loop of `monitor_chain` for a
single record.  `send` is the external notification outcome oracle
(display name and new value determine the attempt); its result is recorded
but — exactly as in the code, where the `try/except` swallows the Discord
failure — never influences the state update. -/
def procWorker (send : String → Int → Bool) (st : StepState) (w : Record) :
    StepState :=
  let raw := workerName w
  if raw = "" then st
  else
    match resolveBest w with
    | none => st
    | some v =>
      match histGet st.hist raw with
      | none => { st with hist := histSet st.hist raw v, changed := true }
      | some prev =>
        if v > prev then
          let display := pretty_worker_name raw
          { hist := histSet st.hist raw v,
            changed := true,
            notifs := st.notifs ++ [⟨raw, display, prev, v, send display v⟩] }
        else st

/-- One full pass of the evaluation loop over `workers_details` (the
`changed = False` initialisation and the `for` loop of `monitor_chain`). -/
def evalStep (send : String → Int → Bool) (hist : Hist)
    (details : List Record) : StepState :=
  details.foldl (procWorker send) ⟨hist, false, []⟩

/-- The `details` extraction of `monitor_chain`:
`workers_data.get("workers_details", [])`, replaced by `[]` when not a
list. -/
def detailsOf (workers_data : List (String × Val)) : List Val :=
  match pyGetD workers_data "workers_details" (.vlist []) with
  | .vlist xs => xs
  | _ => []

/-- One loop iteration at the `Val` level: a non-dict element raises
(`w.get` on a non-dict is an `AttributeError`), which the per-cycle
`except` catches — the cycle aborts (`none`). -/
def procWorkerV (send : String → Int → Bool) (st : StepState) (w : Val) :
    Option StepState :=
  match w with
  | .vdict r => some (procWorker send st r)
  | _ => none

/-- The evaluation pass over the raw `workers_details` value, with the
cycle-aborting exception path made explicit. -/
def evalStepV (send : String → Int → Bool) (hist : Hist) (ws : List Val) :
    Option StepState :=
  ws.foldlM (procWorkerV send) ⟨hist, false, []⟩

/-- A sequence of evaluation cycles threading the in-memory history, as
the `while True` loop of `monitor_chain` does (one element of `cycles`
per fetched worker list). -/
def runCycles (send : String → Int → Bool) (hist : Hist)
    (cycles : List (List Record)) : Hist :=
  cycles.foldl (fun h details => (evalStep send h details).hist) hist

/-- The two on-disk paths `monitor_chain` touches:
`/data/<chain>_state.json.tmp` and `/data/<chain>_state.json` (contents
modelled by the mapping they serialise; `none` = file absent). -/
structure FS where
  tmpFile : Option Hist
  stateFile : Option Hist
deriving DecidableEq

/-- `json.dump(\x7b"last_bestever": last_bestever\x7d, f)` to the temporary
path. -/
def writeTmp (fs : FS) (h : Hist) : FS :=
  { fs with tmpFile := some h }

/-- `os.replace(state_file + ".tmp", state_file)`: atomic rename of the
temporary file over the canonical one. -/
def osReplace (fs : FS) : FS :=
  { tmpFile := none, stateFile := fs.tmpFile }

/-- The tail of one `monitor_chain` cycle: evaluate the worker list, then
persist (`writeTmp` followed by `osReplace`) only when `changed`. -/
def persistCycle (send : String → Int → Bool) (fs : FS) (hist : Hist)
    (details : List Record) : FS × StepState :=
  let r := evalStep send hist details
  if r.changed then (osReplace (writeTmp fs r.hist), r) else (fs, r)

/-! ### Lemmas about the history mapping -/

theorem histGet_histSet_self (h : Hist) (k : String) (v : Int) :
    histGet (histSet h k v) k = some v := by
  induction h with
  | nil => simp [histSet, histGet]
  | cons kv t ih =>
    obtain ⟨k', v'⟩ := kv
    by_cases hk : k' = k
    · subst hk
      simp [histSet, histGet]
    · simp only [histSet, beq_iff_eq, if_neg hk]
      simpa [histGet, hk] using ih

theorem histGet_histSet_ne (h : Hist) (k k' : String) (v : Int)
    (hne : k' ≠ k) : histGet (histSet h k v) k' = histGet h k' := by
  have hne' : k ≠ k' := Ne.symm hne
  induction h with
  | nil => simp [histSet, histGet, hne']
  | cons kv t ih =>
    obtain ⟨k₀, v₀⟩ := kv
    by_cases hk : k₀ = k
    · subst hk
      simp [histSet, histGet, hne']
    · by_cases hk' : k₀ = k'
      · subst hk'
        simp [histSet, histGet, hk]
      · simp only [histSet, beq_iff_eq, if_neg hk]
        simpa [histGet, hk'] using ih

/-- "Entry values only grow and entries are never deleted", as a relation
between two histories. -/
def histLE (h₁ h₂ : Hist) : Prop :=
  ∀ k p, histGet h₁ k = some p → ∃ q, histGet h₂ k = some q ∧ p ≤ q

theorem histLE_refl (h : Hist) : histLE h h :=
  fun _ p hp => ⟨p, hp, le_refl p⟩

theorem histLE_trans {h₁ h₂ h₃ : Hist} (a : histLE h₁ h₂) (b : histLE h₂ h₃) :
    histLE h₁ h₃ := by
  intro k p hp
  obtain ⟨q, hq, hpq⟩ := a k p hp
  obtain ⟨r, hr, hqr⟩ := b k q hq
  exact ⟨r, hr, le_trans hpq hqr⟩

/-- Some entry of `h₂` is new or strictly larger than in `h₁`. -/
def histDiff (h₁ h₂ : Hist) : Prop :=
  ∃ k, (histGet h₁ k = none ∧ histGet h₂ k ≠ none) ∨
    (∃ p q, histGet h₁ k = some p ∧ histGet h₂ k = some q ∧ p < q)

theorem histDiff_ne {h₁ h₂ : Hist} (hd : histDiff h₁ h₂) : h₂ ≠ h₁ := by
  rintro rfl
  obtain ⟨k, hk | ⟨p, q, hp, hq, hpq⟩⟩ := hd
  · exact hk.2 hk.1
  · rw [hp] at hq
    cases hq
    exact lt_irrefl p hpq

/-! ### Per-branch equations for one loop iteration -/

theorem procWorker_of_empty {send : String → Int → Bool} {st : StepState}
    {w : Record} (h : workerName w = "") :
    procWorker send st w = st := by
  simp [procWorker, h]

theorem procWorker_of_unresolved {send : String → Int → Bool}
    {st : StepState} {w : Record} (h : resolveBest w = none) :
    procWorker send st w = st := by
  simp [procWorker, h]

theorem procWorker_of_new {send : String → Int → Bool} {st : StepState}
    {w : Record} {v : Int} (hne : workerName w ≠ "")
    (hres : resolveBest w = some v)
    (hprev : histGet st.hist (workerName w) = none) :
    procWorker send st w =
      { st with hist := histSet st.hist (workerName w) v, changed := true } := by
  simp [procWorker, hne, hres, hprev]

theorem procWorker_of_increase {send : String → Int → Bool} {st : StepState}
    {w : Record} {v prev : Int} (hne : workerName w ≠ "")
    (hres : resolveBest w = some v)
    (hprev : histGet st.hist (workerName w) = some prev) (hlt : prev < v) :
    procWorker send st w =
      ⟨histSet st.hist (workerName w) v, true,
        st.notifs ++ [⟨workerName w, pretty_worker_name (workerName w), prev,
          v, send (pretty_worker_name (workerName w)) v⟩]⟩ := by
  simp [procWorker, hne, hres, hprev, hlt]

theorem procWorker_of_no_increase {send : String → Int → Bool}
    {st : StepState} {w : Record} {v prev : Int}
    (hne : workerName w ≠ "") (hres : resolveBest w = some v)
    (hprev : histGet st.hist (workerName w) = some prev) (hle : v ≤ prev) :
    procWorker send st w = st := by
  simp [procWorker, hne, hres, hprev, not_lt.mpr hle]

/-! ### Structural lemmas about one loop iteration -/

/-- The in-memory history never shrinks across one record. -/
theorem procWorker_histLE (send : String → Int → Bool) (st : StepState)
    (w : Record) : histLE st.hist (procWorker send st w).hist := by
  by_cases hE : workerName w = ""
  · rw [procWorker_of_empty hE]; exact histLE_refl _
  ·
    cases hR : resolveBest w with
    | none => rw [procWorker_of_unresolved hR]; exact histLE_refl _
    | some v =>
      cases hP : histGet st.hist (workerName w) with
      | none =>
        rw [procWorker_of_new hE hR hP]
        intro k p hp
        by_cases hk : k = workerName w
        · subst hk
          rw [hP] at hp
          cases hp
        · refine ⟨p, ?_, le_refl p⟩
          rw [histGet_histSet_ne _ _ _ _ hk]
          exact hp
      | some prev =>
        by_cases hlt : prev < v
        · rw [procWorker_of_increase hE hR hP hlt]
          intro k p hp
          by_cases hk : k = workerName w
          · subst hk
            rw [hP] at hp
            cases hp
            exact ⟨v, histGet_histSet_self _ _ _, le_of_lt hlt⟩
          · refine ⟨p, ?_, le_refl p⟩
            rw [histGet_histSet_ne _ _ _ _ hk]
            exact hp
        · rw [procWorker_of_no_increase hE hR hP (not_lt.mp hlt)]
          exact histLE_refl _

/-- If an iteration leaves `changed` false, it left the whole state
untouched. -/
theorem procWorker_changed_false (send : String → Int → Bool)
    (st : StepState) (w : Record)
    (h : (procWorker send st w).changed = false) :
    procWorker send st w = st := by
  by_cases hE : workerName w = ""
  · exact procWorker_of_empty hE
  ·
    cases hR : resolveBest w with
    | none => exact procWorker_of_unresolved hR
    | some v =>
      cases hP : histGet st.hist (workerName w) with
      | none => rw [procWorker_of_new hE hR hP] at h; simp at h
      | some prev =>
        by_cases hlt : prev < v
        · rw [procWorker_of_increase hE hR hP hlt] at h; simp at h
        · exact procWorker_of_no_increase hE hR hP (not_lt.mp hlt)

/-- The `changed` flag is monotone along the loop. -/
theorem procWorker_changed_mono (send : String → Int → Bool)
    (st : StepState) (w : Record) (h : st.changed = true) :
    (procWorker send st w).changed = true := by
  by_cases hE : workerName w = ""
  · rw [procWorker_of_empty hE]; exact h
  ·
    cases hR : resolveBest w with
    | none => rw [procWorker_of_unresolved hR]; exact h
    | some v =>
      cases hP : histGet st.hist (workerName w) with
      | none => rw [procWorker_of_new hE hR hP]
      | some prev =>
        by_cases hlt : prev < v
        · rw [procWorker_of_increase hE hR hP hlt]
        · rw [procWorker_of_no_increase hE hR hP (not_lt.mp hlt)]; exact h

/-! ### Lemmas about the whole evaluation pass -/

theorem foldl_histLE (send : String → Int → Bool) (details : List Record)
    (st : StepState) :
    histLE st.hist ((details.foldl (procWorker send) st).hist) := by
  induction details generalizing st with
  | nil => exact histLE_refl _
  | cons w ws ih =>
    exact histLE_trans (procWorker_histLE send st w) (ih (procWorker send st w))

theorem foldl_changed_mono (send : String → Int → Bool)
    (details : List Record) (st : StepState) (h : st.changed = true) :
    ((details.foldl (procWorker send) st).changed) = true := by
  induction details generalizing st with
  | nil => exact h
  | cons w ws ih => exact ih _ (procWorker_changed_mono send st w h)

theorem foldl_changed_false (send : String → Int → Bool)
    (details : List Record) (st : StepState)
    (h : (details.foldl (procWorker send) st).changed = false) :
    details.foldl (procWorker send) st = st := by
  induction details generalizing st with
  | nil => rfl
  | cons w ws ih =>
    rw [List.foldl_cons] at h ⊢
    have h1 : (procWorker send st w).changed = false := by
      cases hx : (procWorker send st w).changed with
      | false => rfl
      | true =>
        rw [foldl_changed_mono send ws _ hx] at h
        cases h
    rw [procWorker_changed_false send st w h1] at h ⊢
    exact ih _ h

theorem procWorker_diff (send : String → Int → Bool) (st : StepState)
    (w : Record) (hist0 : Hist) (inv : histLE hist0 st.hist)
    (hc : st.changed = true → histDiff hist0 st.hist)
    (h : (procWorker send st w).changed = true) :
    histDiff hist0 (procWorker send st w).hist := by
  by_cases hE : workerName w = ""
  · rw [procWorker_of_empty hE] at h ⊢; exact hc h
  ·
    cases hR : resolveBest w with
    | none => rw [procWorker_of_unresolved hR] at h ⊢; exact hc h
    | some v =>
      cases hP : histGet st.hist (workerName w) with
      | none =>
        rw [procWorker_of_new hE hR hP]
        refine ⟨workerName w, Or.inl ⟨?_, ?_⟩⟩
        · cases hh : histGet hist0 (workerName w) with
          | none => rfl
          | some p =>
            obtain ⟨q, hq, -⟩ := inv _ p hh
            rw [hP] at hq
            cases hq
        · simp [histGet_histSet_self]
      | some prev =>
        by_cases hlt : prev < v
        · rw [procWorker_of_increase hE hR hP hlt]
          cases hh : histGet hist0 (workerName w) with
          | none =>
            refine ⟨workerName w, Or.inl ⟨hh, ?_⟩⟩
            simp [histGet_histSet_self]
          | some p0 =>
            obtain ⟨q, hq, hpq⟩ := inv _ p0 hh
            rw [hP] at hq
            cases hq
            exact ⟨workerName w, Or.inr ⟨p0, v, hh,
              histGet_histSet_self _ _ _, lt_of_le_of_lt hpq hlt⟩⟩
        · rw [procWorker_of_no_increase hE hR hP (not_lt.mp hlt)] at h ⊢
          exact hc h

theorem foldl_diff (send : String → Int → Bool) (details : List Record)
    (st : StepState) (hist0 : Hist) (inv : histLE hist0 st.hist)
    (hc : st.changed = true → histDiff hist0 st.hist)
    (h : (details.foldl (procWorker send) st).changed = true) :
    histDiff hist0 (details.foldl (procWorker send) st).hist := by
  induction details generalizing st with
  | nil => exact hc h
  | cons w ws ih =>
    rw [List.foldl_cons] at h ⊢
    exact ih (procWorker send st w)
      (histLE_trans inv (procWorker_histLE send st w))
      (procWorker_diff send st w hist0 inv hc) h

/-- The invariant that every attempted notification's new value is already
reflected (or exceeded) in the in-memory history. -/
def notifBound (st : StepState) : Prop :=
  ∀ n ∈ st.notifs, ∃ q, histGet st.hist n.worker = some q ∧ n.newVal ≤ q

theorem procWorker_notifBound (send : String → Int → Bool) (st : StepState)
    (w : Record) (h : notifBound st) : notifBound (procWorker send st w) := by
  have hL : histLE st.hist (procWorker send st w).hist :=
    procWorker_histLE send st w
  by_cases hE : workerName w = ""
  · rw [procWorker_of_empty hE]; exact h
  ·
    cases hR : resolveBest w with
    | none => rw [procWorker_of_unresolved hR]; exact h
    | some v =>
      cases hP : histGet st.hist (workerName w) with
      | none =>
        rw [procWorker_of_new hE hR hP] at hL ⊢
        intro n hn
        obtain ⟨q, hq, hle⟩ := h n hn
        obtain ⟨q', hq', hqq'⟩ := hL n.worker q hq
        exact ⟨q', hq', le_trans hle hqq'⟩
      | some prev =>
        by_cases hlt : prev < v
        · rw [procWorker_of_increase hE hR hP hlt] at hL ⊢
          intro n hn
          rcases List.mem_append.mp hn with hn | hn
          · obtain ⟨q, hq, hle⟩ := h n hn
            obtain ⟨q', hq', hqq'⟩ := hL n.worker q hq
            exact ⟨q', hq', le_trans hle hqq'⟩
          · rcases List.mem_singleton.mp hn with rfl
            exact ⟨v, histGet_histSet_self _ _ _, le_refl v⟩
        · rw [procWorker_of_no_increase hE hR hP (not_lt.mp hlt)]
          exact h

theorem foldl_notifBound (send : String → Int → Bool)
    (details : List Record) (st : StepState) (h : notifBound st) :
    notifBound (details.foldl (procWorker send) st) := by
  induction details generalizing st with
  | nil => exact h
  | cons w ws ih => exact ih _ (procWorker_notifBound send st w h)

/-- The send-outcome-independent content of a notification attempt. -/
def notifKeys (ns : List Notif) : List (String × String × Int × Int) :=
  ns.map (fun n => (n.worker, n.display, n.prev, n.newVal))

theorem procWorker_send_invariant (s₁ s₂ : String → Int → Bool)
    (st₁ st₂ : StepState) (w : Record) (hh : st₁.hist = st₂.hist)
    (hc : st₁.changed = st₂.changed)
    (hn : notifKeys st₁.notifs = notifKeys st₂.notifs) :
    (procWorker s₁ st₁ w).hist = (procWorker s₂ st₂ w).hist ∧
    (procWorker s₁ st₁ w).changed = (procWorker s₂ st₂ w).changed ∧
    notifKeys (procWorker s₁ st₁ w).notifs
      = notifKeys (procWorker s₂ st₂ w).notifs := by
  by_cases hE : workerName w = ""
  · rw [@procWorker_of_empty s₁ st₁ w hE, @procWorker_of_empty s₂ st₂ w hE]
    exact ⟨hh, hc, hn⟩
  ·
    cases hR : resolveBest w with
    | none =>
      rw [@procWorker_of_unresolved s₁ st₁ w hR,
        @procWorker_of_unresolved s₂ st₂ w hR]
      exact ⟨hh, hc, hn⟩
    | some v =>
      cases hP : histGet st₁.hist (workerName w) with
      | none =>
        rw [@procWorker_of_new s₁ st₁ w v hE hR hP,
          @procWorker_of_new s₂ st₂ w v hE hR (hh ▸ hP)]
        exact ⟨by rw [hh], rfl, hn⟩
      | some prev =>
        by_cases hlt : prev < v
        · rw [@procWorker_of_increase s₁ st₁ w v prev hE hR hP hlt,
            @procWorker_of_increase s₂ st₂ w v prev hE hR (hh ▸ hP) hlt]
          refine ⟨by rw [hh], rfl, ?_⟩
          unfold notifKeys at hn ⊢
          simp only [List.map_append]
          rw [hn]
          simp
        · rw [@procWorker_of_no_increase s₁ st₁ w v prev hE hR hP
              (not_lt.mp hlt),
            @procWorker_of_no_increase s₂ st₂ w v prev hE hR (hh ▸ hP)
              (not_lt.mp hlt)]
          exact ⟨hh, hc, hn⟩

theorem foldl_send_invariant (s₁ s₂ : String → Int → Bool)
    (details : List Record) (st₁ st₂ : StepState) (hh : st₁.hist = st₂.hist)
    (hc : st₁.changed = st₂.changed)
    (hn : notifKeys st₁.notifs = notifKeys st₂.notifs) :
    (details.foldl (procWorker s₁) st₁).hist
      = (details.foldl (procWorker s₂) st₂).hist ∧
    (details.foldl (procWorker s₁) st₁).changed
      = (details.foldl (procWorker s₂) st₂).changed ∧
    notifKeys (details.foldl (procWorker s₁) st₁).notifs
      = notifKeys (details.foldl (procWorker s₂) st₂).notifs := by
  induction details generalizing st₁ st₂ with
  | nil => exact ⟨hh, hc, hn⟩
  | cons w ws ih =>
    obtain ⟨hh', hc', hn'⟩ := procWorker_send_invariant s₁ s₂ st₁ st₂ w hh hc hn
    exact ih _ _ hh' hc' hn'

/-! ### Evaluation lemmas for the rational-valued helpers -/

theorem pyTrunc_intCast (n : ℤ) : pyTrunc (n : ℚ) = n := by
  unfold pyTrunc
  split
  · exact Int.floor_intCast n
  · exact Int.ceil_intCast n

theorem pyTrunc_natCast (n : ℕ) : pyTrunc (n : ℚ) = n := by
  have h : ((n : ℚ)) = (((n : ℤ)) : ℚ) := by push_cast; ring
  rw [h, pyTrunc_intCast]

theorem pyTrunc_zero : pyTrunc 0 = 0 := by
  simpa using pyTrunc_intCast 0

theorem clamp_of_nonpos {ratio : ℚ} (h : ratio ≤ 0) :
    min (max 0 ratio) 1 = 0 := by
  rw [max_eq_left h]
  exact min_eq_left zero_le_one

theorem clamp_of_ge_one {ratio : ℚ} (h : 1 ≤ ratio) :
    min (max 0 ratio) 1 = 1 := by
  rw [max_eq_right (le_trans zero_le_one h)]
  exact min_eq_right h

theorem round2_zero : round2 0 = 0 := by
  norm_num [round2]

theorem round2_hundred : round2 100 = 10000 := by
  have h1 : (100 : ℚ) * 100 = ((10000 : ℤ) : ℚ) := by norm_num
  unfold round2
  simp only [h1, Int.floor_intCast]
  norm_num

theorem fmt2_zero : fmt2 0 = "0.00" := by
  unfold fmt2
  rw [round2_zero]
  rfl

theorem fmt2_hundred : fmt2 100 = "100.00" := by
  unfold fmt2
  rw [round2_hundred]
  rfl

theorem filledCount_of_nonpos {ratio : ℚ} (h : ratio ≤ 0) (width : Nat) :
    filledCount ratio width = 0 := by
  unfold filledCount
  rw [clamp_of_nonpos h, zero_mul, pyTrunc_zero]
  rfl

theorem filledCount_of_ge_one {ratio : ℚ} (h : 1 ≤ ratio) (width : Nat) :
    filledCount ratio width = width := by
  unfold filledCount
  rw [clamp_of_ge_one h, one_mul, pyTrunc_natCast]
  exact Int.toNat_natCast width

/-- The clamped fill never exceeds the width. -/
theorem filledCount_le_width (ratio : ℚ) (width : Nat) :
    filledCount ratio width ≤ width := by
  unfold filledCount
  have h0 : (0 : ℚ) ≤ min (max 0 ratio) 1 :=
    le_min (le_max_left 0 ratio) zero_le_one
  have h1 : min (max 0 ratio) 1 ≤ 1 := min_le_right _ _
  have hm : min (max 0 ratio) 1 * width ≤ (width : ℚ) := by
    calc min (max 0 ratio) 1 * width
        ≤ 1 * width := by
          exact mul_le_mul_of_nonneg_right h1 (by positivity)
      _ = (width : ℚ) := one_mul _
  have hnn : (0 : ℚ) ≤ min (max 0 ratio) 1 * width := by positivity
  unfold pyTrunc
  rw [if_pos hnn]
  have hf : ⌊min (max 0 ratio) 1 * (width : ℚ)⌋ ≤ (width : ℤ) := by
    calc ⌊min (max 0 ratio) 1 * (width : ℚ)⌋
        ≤ ⌊((width : ℤ) : ℚ)⌋ := Int.floor_le_floor (by push_cast; exact hm)
      _ = (width : ℤ) := Int.floor_intCast _
  exact Int.toNat_le.mpr hf

theorem barGlyphs_length (ratio : ℚ) (width : Nat) :
    (barGlyphs ratio width).length = width := by
  have h := filledCount_le_width ratio width
  simp [barGlyphs]
  omega

theorem progress_bar_of_nonpos {ratio : ℚ} (h : ratio ≤ 0) (width : Nat) :
    progress_bar ratio width
      = "`" ++ String.mk (List.replicate width '░') ++ "` **0.00%**" := by
  unfold progress_bar barGlyphs
  rw [filledCount_of_nonpos h, clamp_of_nonpos h, zero_mul, fmt2_zero]
  show String.mk _ = String.mk _
  simp

theorem progress_bar_of_ge_one {ratio : ℚ} (h : 1 ≤ ratio) (width : Nat) :
    progress_bar ratio width
      = "`" ++ String.mk (List.replicate width '█') ++ "` **100.00%**" := by
  unfold progress_bar barGlyphs
  rw [filledCount_of_ge_one h, clamp_of_ge_one h, one_mul, fmt2_hundred]
  show String.mk _ = String.mk _
  simp

/-! ### Claim theorems -/

/-- C1: for every worker identifier and observed best-share value, the
evaluation loop attempts a notification exactly when the new value
strictly exceeds the stored History value for that identifier, and never
when the value is equal (or smaller) or when the identifier is seen for
the first time: the list of attempts grows by exactly the one attempt on a
strict increase and by nothing otherwise. -/
theorem claim_c1 (send : String → Int → Bool) (hist : Hist) (changed : Bool)
    (ns : List Notif) (w : Record) (v : Int)
    (hne : workerName w ≠ "") (hres : resolveBest w = some v) :
    (procWorker send ⟨hist, changed, ns⟩ w).notifs =
      ns ++ (match histGet hist (workerName w) with
        | none => []
        | some p =>
            if p < v then
              [⟨workerName w, pretty_worker_name (workerName w), p, v,
                send (pretty_worker_name (workerName w)) v⟩]
            else []) := by
  cases hP : histGet hist (workerName w) with
  | none =>
    rw [procWorker_of_new hne hres hP]
    simp
  | some p =>
    by_cases hlt : p < v
    · rw [procWorker_of_increase hne hres hP hlt]
      simp [hlt]
    · rw [procWorker_of_no_increase hne hres hP (not_lt.mp hlt)]
      simp [hlt]

/-- Witness for C1: worker `pool.rig1` stored at 100 reports 150; exactly
one notification attempt with previous 100 and new value 150 is made. -/
theorem claim_c1_witness :
    (procWorker (fun _ _ => true) ⟨[("pool.rig1", 100)], false, []⟩
        [("workername", Val.vstr "pool.rig1"),
         ("bestever", Val.vint 150)]).notifs =
      [⟨"pool.rig1", "Rig1", 100, 150, true⟩] := by
  have h := claim_c1 (fun _ _ => true) [("pool.rig1", 100)] false []
    [("workername", Val.vstr "pool.rig1"), ("bestever", Val.vint 150)] 150
    (by decide) (by decide)
  exact h.trans (by decide)

/-- C2 counterexample: the record with `best_share_since_block = 0` and
`bestever = 5` resolves to 5 under the code (Python `or` skips the falsy
0), while "first candidate present with a non-null value, coerced to
integer" demands 0. -/
theorem claim_c2_counterexample :
    resolveBest
        [("best_share_since_block", Val.vint 0), ("bestever", Val.vint 5)]
      = some 5 ∧
    specResolveBest
        [("best_share_since_block", Val.vint 0), ("bestever", Val.vint 5)]
      = some 0 := by
  exact ⟨rfl, rfl⟩

/-- C2 (amended): the best-share is resolved by the Python `or`-chain over
the four candidate fields: the first *truthy* candidate wins (a present
value of 0, empty string or `False` is passed over); when no candidate is
truthy the chain yields the last candidate's value (`bestever`), and the
record is skipped when that value is null or when integer coercion
fails. -/
theorem claim_c2 (w : Record) :
    resolveBest w =
      match (bestKeys.map (pyGet w)).find? Val.truthy with
      | some v => pyToInt v
      | none =>
          if (pyGet w "bestever").isNull then none
          else pyToInt (pyGet w "bestever") := by
  have hnull : ∀ u : Val, u.truthy = true → u.isNull = false := by
    intro u hu
    cases u <;> simp_all [Val.truthy, Val.isNull]
  simp only [resolveBest, bestKeys, List.map, pyOr]
  cases h1 : (pyGet w "best_share_since_block").truthy <;>
    cases h2 : (pyGet w "bestshare_since_block").truthy <;>
      cases h3 : (pyGet w "bestever_since_block").truthy <;>
        cases h4 : (pyGet w "bestever").truthy <;>
          simp [List.find?, h1, h2, h3, h4, hnull]

/-- C3: a worker record resolving to a best share of 0 whose identifier is
not yet in History is not skipped: it records a baseline entry of 0,
marks the cycle changed, and fires no notification. -/
theorem claim_c3 (send : String → Int → Bool) (hist : Hist)
    (changed : Bool) (ns : List Notif) (w : Record)
    (hne : workerName w ≠ "") (hres : resolveBest w = some 0)
    (hnew : histGet hist (workerName w) = none) :
    procWorker send ⟨hist, changed, ns⟩ w
      = ⟨histSet hist (workerName w) 0, true, ns⟩ ∧
    histGet (histSet hist (workerName w) 0) (workerName w) = some 0 := by
  exact ⟨procWorker_of_new hne hres hnew, histGet_histSet_self _ _ _⟩

/-- Witness for C3: a first-seen worker with `bestever = 0` establishes a
zero baseline without a notification. -/
theorem claim_c3_witness :
    procWorker (fun _ _ => true) ⟨[], false, []⟩
        [("workername", Val.vstr "a"), ("bestever", Val.vint 0)]
      = ⟨[("a", 0)], true, []⟩ := by
  have h := claim_c3 (fun _ _ => true) [] false []
    [("workername", Val.vstr "a"), ("bestever", Val.vint 0)]
    (by decide) (by decide) (by decide)
  exact h.1.trans (by decide)

/-- C4: the send outcome never influences the evaluation state.  Whatever
the notification oracle answers (in particular when every send fails), the
resulting in-memory History, the `changed` flag and the ordered list of
attempted notifications (worker, display, previous, new — everything but
the recorded outcome) are those of any other oracle, and every attempted
notification's new value is reflected in the final History (no
rollback).  Each detected increase contributes exactly one attempt, so
there is no retry. -/
theorem claim_c4 (send : String → Int → Bool) (hist : Hist)
    (details : List Record) :
    (evalStep (fun _ _ => false) hist details).hist
      = (evalStep send hist details).hist ∧
    (evalStep (fun _ _ => false) hist details).changed
      = (evalStep send hist details).changed ∧
    notifKeys (evalStep (fun _ _ => false) hist details).notifs
      = notifKeys (evalStep send hist details).notifs ∧
    ∀ n ∈ (evalStep (fun _ _ => false) hist details).notifs,
      ∃ q, histGet (evalStep (fun _ _ => false) hist details).hist n.worker
        = some q ∧ n.newVal ≤ q := by
  obtain ⟨hh, hc, hn⟩ := foldl_send_invariant (fun _ _ => false) send details
    ⟨hist, false, []⟩ ⟨hist, false, []⟩ rfl rfl rfl
  refine ⟨hh, hc, hn, ?_⟩
  exact foldl_notifBound (fun _ _ => false) details ⟨hist, false, []⟩
    (fun n hn => absurd hn (List.not_mem_nil n))

/-- Witness for C4: with worker `a` stored at 1 reporting 5, the History
after a cycle in which the only send attempt fails equals the History of a
cycle in which it succeeds, and it carries the new maximum 5. -/
theorem claim_c4_witness :
    (evalStep (fun _ _ => false) [("a", 1)]
        [[("workername", Val.vstr "a"), ("bestever", Val.vint 5)]]).hist
      = (evalStep (fun _ _ => true) [("a", 1)]
        [[("workername", Val.vstr "a"), ("bestever", Val.vint 5)]]).hist
    ∧ (evalStep (fun _ _ => false) [("a", 1)]
        [[("workername", Val.vstr "a"), ("bestever", Val.vint 5)]]).hist
      = [("a", 5)] := by
  refine ⟨(claim_c4 (fun _ _ => true) [("a", 1)]
    [[("workername", Val.vstr "a"), ("bestever", Val.vint 5)]]).1, ?_⟩
  decide

/-- C5: an identifier present in History stays present with a value that
never decreases, across any sequence of evaluation cycles. -/
theorem claim_c5 (send : String → Int → Bool) (hist : Hist)
    (cycles : List (List Record)) (k : String) (p : Int)
    (h : histGet hist k = some p) :
    ∃ q, histGet (runCycles send hist cycles) k = some q ∧ p ≤ q := by
  induction cycles generalizing hist p with
  | nil => exact ⟨p, h, le_refl p⟩
  | cons d ds ih =>
    have h1 : histLE hist (evalStep send hist d).hist :=
      foldl_histLE send d ⟨hist, false, []⟩
    obtain ⟨q, hq, hpq⟩ := h1 k p h
    obtain ⟨r, hr, hqr⟩ := ih _ _ hq
    exact ⟨r, hr, le_trans hpq hqr⟩

/-- Witness for C5: worker `a` stored at 7 across a cycle where it reports
5 (ignored) and a cycle where another worker appears: still present, and
at least 7. -/
theorem claim_c5_witness :
    histGet [("a", 7)] "a" = some 7 ∧
    ∃ q, histGet (runCycles (fun _ _ => true) [("a", 7)]
      [[[("workername", Val.vstr "a"), ("bestever", Val.vint 5)]],
       [[("workername", Val.vstr "b"), ("bestever", Val.vint 9)]]]) "a"
        = some q ∧ 7 ≤ q := by
  exact ⟨by decide, claim_c5 (fun _ _ => true) [("a", 7)]
    [[[("workername", Val.vstr "a"), ("bestever", Val.vint 5)]],
     [[("workername", Val.vstr "b"), ("bestever", Val.vint 9)]]] "a" 7
    (by decide)⟩

/-- The head of `dropWhile p` never satisfies `p`. -/
theorem head_dropWhile_false {α : Type} (p : α → Bool) (l : List α) (c : α)
    (h : (l.dropWhile p).head? = some c) : p c = false := by
  induction l with
  | nil => cases h
  | cons a t ih =>
    by_cases hp : p a
    · rw [List.dropWhile_cons_of_pos hp] at h
      exact ih h
    · rw [List.dropWhile_cons_of_neg hp] at h
      cases h
      exact Bool.not_eq_true _ |>.mp hp

/-- `rstrip("/")` leaves no trailing slash. -/
theorem endsSlash_rstripSlash (s : String) :
    endsSlash (rstripSlash s) = false := by
  unfold endsSlash rstripSlash
  rw [List.getLast?_reverse]
  cases hh : (s.data.reverse.dropWhile (fun c => decide (c = '/'))).head? with
  | none => rfl
  | some c =>
    have := head_dropWhile_false _ _ _ hh
    simp at this
    simp [hh, this]

/-- C6 counterexample: `load_config` of `web/app.py` (also cited by the
claim) does not default missing base URLs to the empty string — with an
unreadable document and detected gateway `192.168.1.1`, `bch_base` is
`http://192.168.1.1:21212` — and it does not strip trailing slashes: a
stored `http://x/` is returned verbatim. -/
theorem claim_c6_counterexample :
    (webLoadConfig "192.168.1.1" none).bch_base
      = Val.vstr "http://192.168.1.1:21212" ∧
    Val.vstr "http://192.168.1.1:21212" ≠ Val.vstr "" ∧
    (webLoadConfig "192.168.1.1"
        (some (.vdict [("bch_base", .vstr "http://x/")]))).bch_base
      = Val.vstr "http://x/" ∧
    endsSlash "http://x/" = true := by
  refine ⟨rfl, ?_, rfl, rfl⟩
  intro h
  injection h with h'
  exact absurd h' (by decide)

/-- C6 (amended): the watcher's `load_config` never fails, defaults every
missing or null key to the empty string, and strips trailing slashes from
every returned base URL; the web interface's `load_config` also never
fails, but it defaults the base URLs to host-gateway-derived addresses
(not the empty string) and returns stored truthy values verbatim, without
slash stripping. -/
theorem claim_c6 (doc : Option Val) (d : List (String × Val)) (ip : String)
    (v : Val) :
    load_config none = ⟨"", "", "", "", "", ""⟩ ∧
    (dictGet d "bch_base" = none →
      (load_config (some (.vdict d))).bch_base = "") ∧
    (dictGet d "proxy_token" = none →
      (load_config (some (.vdict d))).proxy_token = "") ∧
    (dictGet d "discord_webhook" = none →
      (load_config (some (.vdict d))).discord_webhook = "") ∧
    endsSlash (load_config doc).bch_base = false ∧
    endsSlash (load_config doc).xec_base = false ∧
    endsSlash (load_config doc).btc_base = false ∧
    endsSlash (load_config doc).dbg_base = false ∧
    (webLoadConfig ip none).bch_base
      = .vstr ("http://" ++ ip ++ ":21212") ∧
    (dictGet d "bch_base" = some v → v.truthy = true →
      (webLoadConfig ip (some (.vdict d))).bch_base = v) := by
  refine ⟨rfl, ?_, ?_, ?_, endsSlash_rstripSlash _, endsSlash_rstripSlash _,
    endsSlash_rstripSlash _, endsSlash_rstripSlash _, rfl, ?_⟩
  · intro h
    simp [load_config, h, rstripSlash]
  · intro h
    simp [load_config, h]
  · intro h
    simp [load_config, h]
  · intro h ht
    simp [webLoadConfig, h, ht]

/-- Witness for C6: concrete instantiation — a document holding only
`bch_base = "http://y//"` yields `bch_base = "http://y"`, empty
`proxy_token`, and the web loader returns a truthy stored value
verbatim. -/
theorem claim_c6_witness :
    (load_config (some (.vdict [("bch_base", .vstr "http://y//")]))).proxy_token
      = "" ∧
    (webLoadConfig "10.0.0.1"
        (some (.vdict [("bch_base", .vstr "http://y//")]))).bch_base
      = .vstr "http://y//" ∧
    (load_config (some (.vdict [("bch_base", .vstr "http://y//")]))).bch_base
      = "http://y" := by
  have h := claim_c6 (some (.vdict [("bch_base", .vstr "http://y//")]))
    [("bch_base", .vstr "http://y//")] "10.0.0.1" (.vstr "http://y//")
  exact ⟨h.2.2.1 rfl, h.2.2.2.2.2.2.2.2.2 rfl (by decide), by decide⟩

/-- C7: a cycle writes the state file exactly when at least one entry
changed (a new baseline or an increase): the `changed` flag is true iff
the evaluated History differs from the loaded one; on a changed cycle the
canonical file receives exactly the new mapping through the temporary
file and `os.replace`, and on an unchanged cycle the file system is left
untouched. -/
theorem claim_c7 (send : String → Int → Bool) (fs : FS) (hist : Hist)
    (details : List Record) :
    ((evalStep send hist details).changed = true
      ↔ (evalStep send hist details).hist ≠ hist) ∧
    ((evalStep send hist details).changed = true →
      (persistCycle send fs hist details).1
        = ⟨none, some (evalStep send hist details).hist⟩) ∧
    ((evalStep send hist details).changed = false →
      (persistCycle send fs hist details).1 = fs) := by
  refine ⟨⟨?_, ?_⟩, ?_, ?_⟩
  · intro h
    exact histDiff_ne (foldl_diff send details ⟨hist, false, []⟩ hist
      (histLE_refl hist) (fun hh => Bool.noConfusion hh) h)
  · intro hne
    cases hx : (evalStep send hist details).changed with
    | true => rfl
    | false =>
      have hfix := foldl_changed_false send details ⟨hist, false, []⟩ hx
      rw [evalStep] at hne
      rw [hfix] at hne
      exact absurd rfl hne
  · intro h
    simp [persistCycle, writeTmp, osReplace, h]
  · intro h
    simp [persistCycle, h]

/-- Witness for C7: a cycle with a genuine increase marks `changed`, and
the canonical file then holds exactly the new mapping. -/
theorem claim_c7_witness :
    (evalStep (fun _ _ => true) [("a", 1)]
        [[("workername", Val.vstr "a"), ("bestever", Val.vint 5)]]).changed
      = true ∧
    (persistCycle (fun _ _ => true) ⟨none, some [("a", 1)]⟩ [("a", 1)]
        [[("workername", Val.vstr "a"), ("bestever", Val.vint 5)]]).1
      = ⟨none, some (evalStep (fun _ _ => true) [("a", 1)]
          [[("workername", Val.vstr "a"), ("bestever", Val.vint 5)]]).hist⟩ := by
  refine ⟨by decide, ?_⟩
  exact (claim_c7 (fun _ _ => true) ⟨none, some [("a", 1)]⟩ [("a", 1)]
    [[("workername", Val.vstr "a"), ("bestever", Val.vint 5)]]).2.1 (by decide)

/-- C8 counterexample: with no `network_difficulty` in the pool summary
the progress ratio is not omitted from the message — the embed still
carries the `📈 Progress to Block` field, rendered from ratio `0.0` as an
empty bar — contradicting "undefined and omitted". -/
theorem claim_c8_counterexample :
    diffIntOf [] = none ∧
    ((athFields "Rig1" 5 []).map Prod.fst).contains "📈 Progress to Block"
      = true ∧
    ratioOf 5 [] = 0 ∧
    progress_bar (ratioOf 5 []) 18
      = "`░░░░░░░░░░░░░░░░░░` **0.00%**" := by
  refine ⟨rfl, by decide, rfl, ?_⟩
  have h : ratioOf 5 [] = 0 := rfl
  rw [h, progress_bar_of_nonpos (le_refl 0) 18]
  decide

/-- C8 (amended): when the raw difficulty is truthy and coerces to a
nonzero integer `d`, the embedded progress ratio is `bestever / d` (for a
positive integer difficulty this is `new_value / network_difficulty`);
when the difficulty is missing, null, falsy, unparseable, or truncates to
zero, the ratio is `0.0` instead — and the progress field is embedded in
the message in every case, never omitted. -/
theorem claim_c8 (display : String) (bestever : Int)
    (pool_data : List (String × Val)) (d : Int) :
    (diffIntOf pool_data = some d → d ≠ 0 →
      ratioOf bestever pool_data = (bestever : ℚ) / (d : ℚ)) ∧
    (diffIntOf pool_data = none → ratioOf bestever pool_data = 0) ∧
    (diffIntOf pool_data = some 0 → ratioOf bestever pool_data = 0) ∧
    ("📈 Progress to Block",
        progress_bar (ratioOf bestever pool_data) 18)
      ∈ athFields display bestever pool_data := by
  refine ⟨?_, ?_, ?_, ?_⟩
  · intro h hd
    simp [ratioOf, h, hd]
  · intro h
    simp [ratioOf, h]
  · intro h
    simp [ratioOf, h]
  · simp [athFields]

/-- Witness for C8: with `network_difficulty = 100` and a new best share
of 10, the embedded ratio is exactly `10 / 100`. -/
theorem claim_c8_witness :
    diffIntOf [("network_difficulty", Val.vint 100)] = some 100 ∧
    ratioOf 10 [("network_difficulty", Val.vint 100)] = 1 / 10 := by
  have hd : diffIntOf [("network_difficulty", Val.vint 100)] = some 100 := by
    rw [show diffIntOf [("network_difficulty", Val.vint 100)]
      = some (pyTrunc ((100 : ℤ) : ℚ)) from rfl, pyTrunc_intCast]
  have h := (claim_c8 "W" 10 [("network_difficulty", Val.vint 100)] 100).1
    hd (by decide)
  refine ⟨hd, ?_⟩
  rw [h]
  norm_num

/-- C9: when the fetched workers document has no `workers_details` list
(missing key or non-list value), the cycle evaluates an empty worker
list: no record is evaluated, no notification is attempted, History is
unchanged, and the pass completes without raising. -/
theorem claim_c9 (send : String → Int → Bool) (hist : Hist)
    (wd : List (String × Val))
    (h : ∀ xs, dictGet wd "workers_details" ≠ some (Val.vlist xs)) :
    detailsOf wd = [] ∧
    evalStepV send hist (detailsOf wd) = some ⟨hist, false, []⟩ := by
  have hd : detailsOf wd = [] := by
    unfold detailsOf pyGetD
    cases hg : dictGet wd "workers_details" with
    | none => rfl
    | some v =>
      cases v with
      | vlist xs => exact absurd hg (h xs)
      | vnull => rfl
      | vbool b => rfl
      | vint n => rfl
      | vnum q => rfl
      | vstr s => rfl
      | vdict kvs => rfl
  exact ⟨hd, by rw [hd]; rfl⟩

/-- Witness for C9: a document whose `workers_details` is a string leaves
the pass at the unchanged initial state. -/
theorem claim_c9_witness :
    evalStepV (fun _ _ => true) [("a", 3)]
        (detailsOf [("workers_details", Val.vstr "oops")])
      = some ⟨[("a", 3)], false, []⟩ := by
  exact (claim_c9 (fun _ _ => true) [("a", 3)]
    [("workers_details", Val.vstr "oops")]
    (fun xs hx => by simp [dictGet] at hx)).2

/-- C10: the progress renderer is total on all (exact-rational) ratio
inputs: a non-positive ratio yields zero filled glyphs and `0.00%`, a
ratio of at least 1 yields a fully filled bar and `100.00%`, and the
bar's glyph count always equals the width parameter. -/
theorem claim_c10 (ratio : ℚ) (width : Nat) :
    (ratio ≤ 0 → filledCount ratio width = 0 ∧
      progress_bar ratio width
        = "`" ++ String.mk (List.replicate width '░') ++ "` **0.00%**") ∧
    (1 ≤ ratio → filledCount ratio width = width ∧
      progress_bar ratio width
        = "`" ++ String.mk (List.replicate width '█') ++ "` **100.00%**") ∧
    (barGlyphs ratio width).length = width := by
  refine ⟨?_, ?_, barGlyphs_length ratio width⟩
  · intro h
    exact ⟨filledCount_of_nonpos h width, progress_bar_of_nonpos h width⟩
  · intro h
    exact ⟨filledCount_of_ge_one h width, progress_bar_of_ge_one h width⟩

/-- Witness for C10: ratio −1 gives an empty bar, ratio 2 a full one, at
width 18. -/
theorem claim_c10_witness :
    (filledCount (-1 : ℚ) 18 = 0 ∧
      progress_bar (-1 : ℚ) 18
        = "`" ++ String.mk (List.replicate 18 '░') ++ "` **0.00%**") ∧
    (filledCount (2 : ℚ) 18 = 18 ∧
      progress_bar (2 : ℚ) 18
        = "`" ++ String.mk (List.replicate 18 '█') ++ "` **100.00%**") :=
  ⟨(claim_c10 (-1) 18).1 (by norm_num), (claim_c10 2 18).2.1 (by norm_num)⟩

end AxeWebhooks
